import Mathlib

/-!
Verification of the generalized Chinese-Remainder core in src/src/cnrt.rs.

The Rust code works on num_bigint BigInt, an arbitrary-precision signed
integer, so every value is embedded as Lean Int.  Rust's `%` on BigInt is
the truncating remainder (sign follows the dividend) and `/` is truncating
division, so they are embedded as Int.tmod and Int.tdiv.  A division or
remainder by zero panics in num_bigint; where a claim is about that fault
the operation is embedded with an Option-valued variant, and everywhere
else the total Lean functions are used (Rust and Lean agree whenever the
divisor is nonzero).
-/

namespace Cnrt

/-- Truncating remainder negates with the dividend (sign follows the
dividend), mirroring Rust's `%` on BigInt. -/
theorem neg_tmod (a b : Int) : (-a).tmod b = -(a.tmod b) := by
  rw [Int.tmod_def, Int.tmod_def, Int.neg_tdiv]
  ring

/-- The absolute value of a truncating remainder is the Nat remainder of
the absolute values. -/
theorem natAbs_tmod (a b : Int) : (a.tmod b).natAbs = a.natAbs % b.natAbs := by
  have key : ∀ p q : Nat, ((p : Int).tmod (q : Int)).natAbs = p % q := by
    intro p q
    rw [← Int.ofNat_tmod, Int.natAbs_ofNat]
  rcases Int.natAbs_eq a with ha | ha <;> rcases Int.natAbs_eq b with hb | hb <;>
    rw [ha, hb] <;>
    simp only [Int.tmod_neg, neg_tmod, Int.natAbs_neg, Int.natAbs_ofNat, key]

/-- Truncating remainder by a nonzero divisor strictly shrinks the
absolute value below that of the divisor; this is the termination measure
of every Euclidean loop in the source. -/
theorem natAbs_tmod_lt (a : Int) {b : Int} (hb : b ≠ 0) :
    (a.tmod b).natAbs < b.natAbs := by
  rw [natAbs_tmod]
  exact Nat.mod_lt _ (Int.natAbs_pos.mpr hb)

/-- One Euclidean step preserves the gcd: the pair (x1, x2) may be
replaced by (x2, x1 tmod x2). -/
theorem gcd_tmod_step (x1 x2 : Int) : Int.gcd x2 (x1.tmod x2) = Int.gcd x1 x2 := by
  rw [Int.gcd_def, Int.gcd_def, natAbs_tmod, Nat.gcd_comm x1.natAbs,
    Nat.gcd_rec x2.natAbs x1.natAbs, Nat.gcd_comm]

/-- Source src/src/cnrt.rs lines 11-13: canonicalizes x into the residue
range of m_r by the double-remainder trick (x % m + m) % m. -/
def into_mod (x m_r : Int) : Int :=
  (x.tmod m_r + m_r).tmod m_r

/-- Fault-aware variant of into_mod: num_bigint's `%` panics on a zero
divisor, so a zero modulus yields none and any nonzero modulus yields the
total value. -/
def into_mod_checked (x m_r : Int) : Option Int :=
  if m_r = 0 then none else some (into_mod x m_r)

/-- Source src/src/cnrt.rs lines 15-29: the recursive extended-Euclid
variant threading a binary mark.  The Rust destructuring
let (mut v, u, c) = bezout_marked(y, x1, 1 - mark) names the first
component v and the second u, then returns (u, v - u * k, c). -/
def bezout_marked (x y : Int) (mark : Int) : Int × Int × Int :=
  if h : y = 0 then (1, mark, x)
  else
    let x1 := x.tmod y
    let k := x.tdiv y
    let r := bezout_marked y x1 (1 - mark)
    (r.2.1, r.1 - r.2.1 * k, r.2.2)
termination_by y.natAbs
decreasing_by exact natAbs_tmod_lt x h

/-- Source src/src/cnrt.rs lines 31-33. -/
def bezout_recursive (x y : Int) : Int × Int × Int :=
  bezout_marked x y 0

/-- Source src/src/cnrt.rs lines 36-47: the inner iterative loop of
bezout.  State: remainders (x1, x2) and coefficient rows (s11, s21) and
(s12, s22). -/
def looper (x1 x2 s11 s21 s12 s22 : Int) : Int × Int × Int :=
  if h : x2 = 0 then (s11, s21, x1)
  else
    let k := x1.tdiv x2
    looper x2 (x1.tmod x2) s12 s22 (s11 - k * s12) (s21 - k * s22)
termination_by x2.natAbs
decreasing_by exact natAbs_tmod_lt x1 h

/-- Source src/src/cnrt.rs lines 35-49: iterative extended Euclid. -/
def bezout (x y : Int) : Int × Int × Int :=
  looper x y 1 0 0 1

/-- Source src/src/cnrt.rs lines 61-65: a congruence value, the unknown
integer is congruent to r modulo m. -/
structure RemainderValue where
  r : Int
  m : Int
deriving DecidableEq, Repr

/-- Source src/src/cnrt.rs lines 71-80: combine two coprime congruences
into one modulo the product. -/
def find_cnrt (m1 m2 r1 r2 : Int) : RemainderValue :=
  let u := (bezout m1 m2).1
  let v := (bezout m1 m2).2.1
  let ans := r2 * u * m1 + r1 * v * m2
  let mod12 := m1 * m2
  { r := into_mod ans mod12, m := mod12 }

namespace RemainderValue

/-- Source src/src/cnrt.rs lines 85-90: the fold-neutral identity value. -/
def new : RemainderValue :=
  { r := 0, m := 1 }

/-- Source src/src/cnrt.rs lines 92-97. -/
def make (n m : Int) : RemainderValue :=
  { r := into_mod n m, m := m }

/-- Fault-aware variant of make: the only arithmetic operation inside is
into_mod, which panics exactly when the modulus is zero. -/
def make_checked (n m : Int) : Option RemainderValue :=
  (into_mod_checked n m).map fun r => { r := r, m := m }

/-- Source src/src/cnrt.rs lines 99-102. -/
def extend (self : RemainderValue) (m1 r1 : Int) : RemainderValue :=
  find_cnrt self.m m1 self.r r1

/-- Source src/src/cnrt.rs lines 127-140, with an explicit fuel counter
standing for the Rust call stack: the source recursion is not structurally
decreasing for degenerate (nonpositive) moduli, where the Rust code itself
panics or diverges, so the recursion depth is made explicit.  For every
modulus at least 1 the fuel natAbs m given by exclude below is proved
sufficient, and the result is independent of any further fuel. -/
def exclude_fuel : Nat → RemainderValue → Int → RemainderValue
  | 0, v, _ => v
  | fuel + 1, v, target =>
    let c := (bezout v.m target).2.2
    if c ≠ 1 then
      let m1 := v.m.tdiv c
      exclude_fuel fuel { r := v.r.tmod m1, m := m1 } c
    else v

/-- Source src/src/cnrt.rs lines 127-140: strip from the modulus of self
every part it shares with target, recursing on the gcd just removed. -/
def exclude (self : RemainderValue) (target : Int) : RemainderValue :=
  exclude_fuel self.m.natAbs self target

/-- Source src/src/cnrt.rs lines 105-125: merge two congruences of a
common unknown into one modulo the lcm of the two moduli. -/
def merge (self : RemainderValue) (result2 : RemainderValue) : RemainderValue :=
  let c := (bezout self.m result2.m).2.2
  if (1 : Int) = c then
    self.extend result2.m result2.r
  else
    let self_prevail_factors := self.m.tdiv c
    let obj2 := result2.exclude self_prevail_factors
    (self.exclude obj2.m).extend obj2.m obj2.r

/-- Source src/src/cnrt.rs lines 142-150: compare the truncating
remainder of n against the stored residue (the println is diagnostics
only and carries no result). -/
def verify (self : RemainderValue) (n : Int) : Bool :=
  n.tmod self.m == self.r

end RemainderValue

/-! Theory of the iterative extended Euclid loop. -/

/-- Terminal equation of the loop: a zero second remainder returns the
first coefficient row and the first remainder. -/
theorem looper_zero (x1 s11 s21 s12 s22 : Int) :
    looper x1 0 s11 s21 s12 s22 = (s11, s21, x1) := by
  rw [looper]
  simp

/-- Step equation of the loop for a nonzero second remainder. -/
theorem looper_step (x1 x2 s11 s21 s12 s22 : Int) (hx2 : x2 ≠ 0) :
    looper x1 x2 s11 s21 s12 s22
      = looper x2 (x1.tmod x2) s12 s22
          (s11 - x1.tdiv x2 * s12) (s21 - x1.tdiv x2 * s22) := by
  rw [looper, dif_neg hx2]

/-- Loop invariant of the source looper: if each coefficient row combines
x and y into the matching remainder, the returned triple satisfies the
Bezout identity. -/
theorem looper_identity (x y x1 x2 s11 s21 s12 s22 : Int) :
    s11 * x + s21 * y = x1 → s12 * x + s22 * y = x2 →
      (looper x1 x2 s11 s21 s12 s22).1 * x + (looper x1 x2 s11 s21 s12 s22).2.1 * y
        = (looper x1 x2 s11 s21 s12 s22).2.2 := by
  induction x1, x2, s11, s21, s12, s22 using looper.induct with
  | case1 x1 s11 s21 s12 s22 =>
    intro h1 h2
    rw [looper_zero]
    simpa using h1
  | case2 x1 x2 s11 s21 s12 s22 hx2 k ih =>
    intro h1 h2
    rw [looper_step x1 x2 s11 s21 s12 s22 hx2]
    refine ih h2 ?_
    linear_combination h1 - x1.tdiv x2 * h2 - Int.tmod_def x1 x2

/-- The third component of the loop result is, in absolute value, the gcd
of the two remainders. -/
theorem looper_gcd (x1 x2 s11 s21 s12 s22 : Int) :
    (looper x1 x2 s11 s21 s12 s22).2.2.natAbs = Int.gcd x1 x2 := by
  induction x1, x2, s11, s21, s12, s22 using looper.induct with
  | case1 x1 s11 s21 s12 s22 =>
    rw [looper_zero]
    simp [Int.gcd_def]
  | case2 x1 x2 s11 s21 s12 s22 hx2 k ih =>
    rw [looper_step x1 x2 s11 s21 s12 s22 hx2, ih, gcd_tmod_step]

/-- On nonnegative remainders the loop result's third component is the
gcd itself, with a nonnegative sign. -/
theorem looper_c_of_nonneg (x1 x2 s11 s21 s12 s22 : Int) :
    0 ≤ x1 → 0 ≤ x2 →
      (looper x1 x2 s11 s21 s12 s22).2.2 = (Int.gcd x1 x2 : Int) := by
  induction x1, x2, s11, s21, s12, s22 using looper.induct with
  | case1 x1 s11 s21 s12 s22 =>
    intro h1 _
    rw [looper_zero]
    simp [Int.gcd_def, Int.natAbs_of_nonneg h1]
  | case2 x1 x2 s11 s21 s12 s22 hx2 k ih =>
    intro h1 h2
    rw [looper_step x1 x2 s11 s21 s12 s22 hx2,
      ih h2 (Int.tmod_nonneg _ h1), gcd_tmod_step]

/-- The third component of the loop result does not depend on the
coefficient rows, only on the remainder pair. -/
theorem looper_c_coeff (x1 x2 s11 s21 s12 s22 : Int) :
    ∀ t11 t21 t12 t22,
      (looper x1 x2 s11 s21 s12 s22).2.2 = (looper x1 x2 t11 t21 t12 t22).2.2 := by
  induction x1, x2, s11, s21, s12, s22 using looper.induct with
  | case1 x1 s11 s21 s12 s22 =>
    intro t11 t21 t12 t22
    rw [looper_zero, looper_zero]
  | case2 x1 x2 s11 s21 s12 s22 hx2 k ih =>
    intro t11 t21 t12 t22
    rw [looper_step x1 x2 s11 s21 s12 s22 hx2,
      looper_step x1 x2 t11 t21 t12 t22 hx2]
    exact ih t12 t22 (t11 - x1.tdiv x2 * t12) (t21 - x1.tdiv x2 * t22)

/-- Bezout identity for the iterative bezout. -/
theorem bezout_identity (x y : Int) :
    (bezout x y).1 * x + (bezout x y).2.1 * y = (bezout x y).2.2 :=
  looper_identity x y x y 1 0 0 1 (by ring) (by ring)

/-- The absolute value of the third component of bezout is the gcd. -/
theorem bezout_gcd_natAbs (x y : Int) :
    (bezout x y).2.2.natAbs = Int.gcd x y :=
  looper_gcd x y 1 0 0 1

/-- On nonnegative inputs the third component of bezout is the
(nonnegative) gcd itself. -/
theorem bezout_c_of_nonneg {x y : Int} (hx : 0 ≤ x) (hy : 0 ≤ y) :
    (bezout x y).2.2 = (Int.gcd x y : Int) :=
  looper_c_of_nonneg x y 1 0 0 1 hx hy

/-- Terminal equation of the recursive variant. -/
theorem bezout_marked_zero (x mark : Int) : bezout_marked x 0 mark = (1, mark, x) := by
  rw [bezout_marked]
  simp

/-- Step equation of the recursive variant for a nonzero second input. -/
theorem bezout_marked_step (x y mark : Int) (hy : y ≠ 0) :
    bezout_marked x y mark
      = ((bezout_marked y (x.tmod y) (1 - mark)).2.1,
         (bezout_marked y (x.tmod y) (1 - mark)).1
           - (bezout_marked y (x.tmod y) (1 - mark)).2.1 * x.tdiv y,
         (bezout_marked y (x.tmod y) (1 - mark)).2.2) := by
  rw [bezout_marked, dif_neg hy]

/-- The recursive variant follows the same remainder chain as the loop,
so its third component agrees with the iterative bezout exactly. -/
theorem bezout_marked_c (x y mark : Int) :
    (bezout_marked x y mark).2.2 = (bezout x y).2.2 := by
  induction x, y, mark using bezout_marked.induct with
  | case1 x mark =>
    rw [bezout_marked_zero, bezout, looper_zero]
  | case2 x y mark hy x1 ih =>
    rw [bezout_marked_step x y mark hy]
    dsimp only
    rw [ih, bezout, bezout, looper_step x y 1 0 0 1 hy]
    exact (looper_c_coeff y (x.tmod y) 0 1 (1 - x.tdiv y * 0) (0 - x.tdiv y * 1) 1 0 0 1).symm

/-- Bezout identity for the marked recursive variant. -/
theorem bezout_marked_identity (x y mark : Int) :
    (bezout_marked x y mark).1 * x + (bezout_marked x y mark).2.1 * y
      = (bezout_marked x y mark).2.2 := by
  induction x, y, mark using bezout_marked.induct with
  | case1 x mark =>
    rw [bezout_marked_zero]
    ring
  | case2 x y mark hy x1 ih =>
    rw [bezout_marked_step x y mark hy]
    dsimp only
    linear_combination ih - (bezout_marked y (x.tmod y) (1 - mark)).2.1 * Int.tmod_def x y

/-! Theory of the double-remainder canonicalization. -/

/-- For a positive modulus, into_mod is exactly the Euclidean remainder,
the canonical representative in [0, m). -/
theorem into_mod_eq_emod (x m : Int) (hm : 0 < m) : into_mod x m = x.emod m := by
  unfold into_mod
  have hlow : -m < x.tmod m := by
    have h := natAbs_tmod_lt x (by omega : m ≠ 0)
    omega
  have h1 : 0 ≤ x.tmod m + m := by omega
  rw [Int.tmod_eq_emod h1 (le_of_lt hm)]
  rw [Int.tmod_def]
  have hx : x - m * x.tdiv m + m = x + m * (1 - x.tdiv m) := by ring
  rw [hx, Int.add_mul_emod_self_left]
  rfl

/-- make with a positive modulus stores the canonical residue. -/
theorem make_eq (n m : Int) (hm : 0 < m) :
    RemainderValue.make n m = { r := n.emod m, m := m } := by
  unfold RemainderValue.make
  rw [into_mod_eq_emod n m hm]

/-! Theory of exclude. -/

/-- One unfolding of the fueled exclude recursion. -/
theorem exclude_fuel_succ (fuel : Nat) (v : RemainderValue) (target : Int) :
    RemainderValue.exclude_fuel (fuel + 1) v target
      = if (bezout v.m target).2.2 ≠ 1 then
          RemainderValue.exclude_fuel fuel
            { r := v.r.tmod (v.m.tdiv (bezout v.m target).2.2),
              m := v.m.tdiv (bezout v.m target).2.2 } (bezout v.m target).2.2
        else v := rfl

/-- Facts about a recursive exclude step with a well-formed value: the
gcd removed is at least 2, it divides the modulus exactly, and the
quotient modulus is positive and at most half the old one. -/
theorem exclude_c_facts {v : RemainderValue} {t : Int} (hm : 1 ≤ v.m) (ht : 0 ≤ t)
    (hne : (bezout v.m t).2.2 ≠ 1) :
    2 ≤ (bezout v.m t).2.2 ∧ (bezout v.m t).2.2 ∣ v.m ∧
      1 ≤ v.m.tdiv (bezout v.m t).2.2 ∧
      v.m.tdiv (bezout v.m t).2.2 * (bezout v.m t).2.2 = v.m ∧
      (v.m.tdiv (bezout v.m t).2.2).natAbs < v.m.natAbs ∧
      2 * v.m.tdiv (bezout v.m t).2.2 ≤ v.m := by
  have hc : (bezout v.m t).2.2 = (Int.gcd v.m t : Int) :=
    bezout_c_of_nonneg (by omega) ht
  have hgpos : 0 < Int.gcd v.m t := Int.gcd_pos_of_ne_zero_left t (by omega)
  have hc2 : 2 ≤ (bezout v.m t).2.2 := by
    rw [hc] at hne ⊢
    omega
  have hdvd : (bezout v.m t).2.2 ∣ v.m := by
    rw [hc]
    exact Int.gcd_dvd_left
  obtain ⟨d, hd⟩ := hdvd
  have hcz : (bezout v.m t).2.2 ≠ 0 := by omega
  have htd : v.m.tdiv (bezout v.m t).2.2 = d :=
    Int.tdiv_eq_of_eq_mul_right hcz hd
  have hd1 : 1 ≤ d := by nlinarith
  have hupper : 2 * d ≤ v.m := by nlinarith
  refine ⟨hc2, ⟨d, hd⟩, ?_, ?_, ?_, ?_⟩
  · omega
  · rw [htd]
    nlinarith
  · rw [htd]
    omega
  · omega

/-- With enough fuel (at least the absolute value of the modulus) the
fueled recursion has stabilized: the result is what exclude returns. -/
theorem exclude_fuel_stable :
    ∀ (k : Nat) (v : RemainderValue) (t : Int) (fuel : Nat),
      v.m.natAbs ≤ k → 1 ≤ v.m → 0 ≤ t → v.m.natAbs ≤ fuel →
      RemainderValue.exclude_fuel fuel v t = RemainderValue.exclude_fuel v.m.natAbs v t := by
  intro k
  induction k using Nat.strong_induction_on with
  | _ k ih =>
    intro v t fuel hk hm ht hfuel
    have hpos : 1 ≤ v.m.natAbs := by omega
    obtain ⟨f, rfl⟩ : ∃ f, fuel = f + 1 := ⟨fuel - 1, by omega⟩
    obtain ⟨a, ha⟩ : ∃ a, v.m.natAbs = a + 1 := ⟨v.m.natAbs - 1, by omega⟩
    rw [ha, exclude_fuel_succ, exclude_fuel_succ]
    by_cases hne : (bezout v.m t).2.2 ≠ 1
    · rw [if_pos hne, if_pos hne]
      obtain ⟨hc2, _, hm1, _, hlt, _⟩ := exclude_c_facts hm ht hne
      have hlt2 : (v.m.tdiv (bezout v.m t).2.2).natAbs ≤ a := by omega
      have hrec1 := ih a (by omega)
        { r := v.r.tmod (v.m.tdiv (bezout v.m t).2.2),
          m := v.m.tdiv (bezout v.m t).2.2 } (bezout v.m t).2.2 f
        hlt2 hm1 (by omega) (by exact le_trans hlt2 (by omega))
      have hrec2 := ih a (by omega)
        { r := v.r.tmod (v.m.tdiv (bezout v.m t).2.2),
          m := v.m.tdiv (bezout v.m t).2.2 } (bezout v.m t).2.2 a
        hlt2 hm1 (by omega) hlt2
      rw [hrec1, hrec2]
    · rw [if_neg hne, if_neg hne]

/-- Any fuel at least the absolute value of the modulus computes exclude. -/
theorem exclude_eq_fuel {v : RemainderValue} {t : Int} (fuel : Nat)
    (hm : 1 ≤ v.m) (ht : 0 ≤ t) (hfuel : v.m.natAbs ≤ fuel) :
    RemainderValue.exclude_fuel fuel v t = v.exclude t :=
  exclude_fuel_stable v.m.natAbs v t fuel le_rfl hm ht hfuel

/-- Fixpoint equation of exclude on well-formed inputs: it matches the
source recursion of src/src/cnrt.rs lines 127-140 literally. -/
theorem exclude_unfold (v : RemainderValue) (t : Int) (hm : 1 ≤ v.m) (ht : 0 ≤ t) :
    v.exclude t
      = if (bezout v.m t).2.2 ≠ 1 then
          RemainderValue.exclude
            { r := v.r.tmod (v.m.tdiv (bezout v.m t).2.2),
              m := v.m.tdiv (bezout v.m t).2.2 } (bezout v.m t).2.2
        else v := by
  have hpos : 1 ≤ v.m.natAbs := by omega
  obtain ⟨a, ha⟩ : ∃ a, v.m.natAbs = a + 1 := ⟨v.m.natAbs - 1, by omega⟩
  show RemainderValue.exclude_fuel v.m.natAbs v t = _
  rw [ha, exclude_fuel_succ]
  by_cases hne : (bezout v.m t).2.2 ≠ 1
  · rw [if_pos hne, if_pos hne]
    obtain ⟨hc2, _, hm1, _, hlt, _⟩ := exclude_c_facts hm ht hne
    exact exclude_eq_fuel a hm1 (by omega)
      (show (v.m.tdiv (bezout v.m t).2.2).natAbs ≤ a by omega)
  · rw [if_neg hne, if_neg hne]

/-- Modulus behaviour of exclude: the result modulus divides the input
modulus, stays positive, and is coprime with the original target. -/
theorem exclude_m_spec :
    ∀ (k : Nat) (v : RemainderValue) (t : Int),
      v.m.natAbs ≤ k → 1 ≤ v.m → 0 ≤ t →
      (v.exclude t).m ∣ v.m ∧ 1 ≤ (v.exclude t).m ∧ Int.gcd (v.exclude t).m t = 1 := by
  intro k
  induction k using Nat.strong_induction_on with
  | _ k ih =>
    intro v t hk hm ht
    have hc : (bezout v.m t).2.2 = (Int.gcd v.m t : Int) :=
      bezout_c_of_nonneg (by omega) ht
    rw [exclude_unfold v t hm ht]
    by_cases hne : (bezout v.m t).2.2 ≠ 1
    · rw [if_pos hne]
      obtain ⟨hc2, hdvd, hm1, hprod, hlt, hhalf⟩ := exclude_c_facts hm ht hne
      obtain ⟨hd, hp, hg⟩ := ih (v.m.tdiv (bezout v.m t).2.2).natAbs (by omega)
        { r := v.r.tmod (v.m.tdiv (bezout v.m t).2.2),
          m := v.m.tdiv (bezout v.m t).2.2 } (bezout v.m t).2.2 le_rfl hm1 (by omega)
      have hm1dvd : v.m.tdiv (bezout v.m t).2.2 ∣ v.m := ⟨(bezout v.m t).2.2, hprod.symm⟩
      refine ⟨dvd_trans hd hm1dvd, hp, ?_⟩
      have h1 : ((Int.gcd (RemainderValue.exclude
          { r := v.r.tmod (v.m.tdiv (bezout v.m t).2.2),
            m := v.m.tdiv (bezout v.m t).2.2 } (bezout v.m t).2.2).m t : Nat) : Int)
          ∣ (RemainderValue.exclude
          { r := v.r.tmod (v.m.tdiv (bezout v.m t).2.2),
            m := v.m.tdiv (bezout v.m t).2.2 } (bezout v.m t).2.2).m :=
        Int.gcd_dvd_left
      have h2 := Int.gcd_dvd_right (a := (RemainderValue.exclude
          { r := v.r.tmod (v.m.tdiv (bezout v.m t).2.2),
            m := v.m.tdiv (bezout v.m t).2.2 } (bezout v.m t).2.2).m) (b := t)
      have h3 := dvd_trans h1 (dvd_trans hd hm1dvd)
      have h4 := Int.dvd_gcd h3 h2
      rw [← hc] at h4
      have h6 := Int.dvd_gcd h1 h4
      rw [hg] at h6
      have h7 := Int.natCast_dvd_natCast.mp (by exact_mod_cast h6)
      exact Nat.dvd_one.mp h7
    · rw [if_neg hne]
      push_neg at hne
      refine ⟨dvd_refl _, hm, ?_⟩
      rw [hne] at hc
      omega

/-- The modulus of an exclude result divides the input modulus. -/
theorem exclude_m_dvd (v : RemainderValue) (t : Int) (hm : 1 ≤ v.m) (ht : 0 ≤ t) :
    (v.exclude t).m ∣ v.m :=
  (exclude_m_spec v.m.natAbs v t le_rfl hm ht).1

/-- The modulus of an exclude result stays positive. -/
theorem exclude_m_pos (v : RemainderValue) (t : Int) (hm : 1 ≤ v.m) (ht : 0 ≤ t) :
    1 ≤ (v.exclude t).m :=
  (exclude_m_spec v.m.natAbs v t le_rfl hm ht).2.1

/-- The modulus of an exclude result is coprime with the original target. -/
theorem exclude_gcd_target (v : RemainderValue) (t : Int) (hm : 1 ≤ v.m) (ht : 0 ≤ t) :
    Int.gcd (v.exclude t).m t = 1 :=
  (exclude_m_spec v.m.natAbs v t le_rfl hm ht).2.2

/-- Residue behaviour of exclude: if the input residue is the canonical
residue of some integer n, the output residue is the canonical residue of
n for the output modulus. -/
theorem exclude_r_spec :
    ∀ (k : Nat) (v : RemainderValue) (t n : Int),
      v.m.natAbs ≤ k → 1 ≤ v.m → 0 ≤ t → v.r = n.emod v.m →
      (v.exclude t).r = n.emod (v.exclude t).m := by
  intro k
  induction k using Nat.strong_induction_on with
  | _ k ih =>
    intro v t n hk hm ht hr
    rw [exclude_unfold v t hm ht]
    by_cases hne : (bezout v.m t).2.2 ≠ 1
    · rw [if_pos hne]
      obtain ⟨hc2, hdvd, hm1, hprod, hlt, hhalf⟩ := exclude_c_facts hm ht hne
      have hm1dvd : v.m.tdiv (bezout v.m t).2.2 ∣ v.m := ⟨(bezout v.m t).2.2, hprod.symm⟩
      refine ih (v.m.tdiv (bezout v.m t).2.2).natAbs (by omega)
        { r := v.r.tmod (v.m.tdiv (bezout v.m t).2.2),
          m := v.m.tdiv (bezout v.m t).2.2 } (bezout v.m t).2.2 n le_rfl hm1 (by omega) ?_
      show v.r.tmod (v.m.tdiv (bezout v.m t).2.2)
        = n.emod (v.m.tdiv (bezout v.m t).2.2)
      have hnn : 0 ≤ n.emod v.m := Int.emod_nonneg n (by omega)
      rw [hr, @Int.tmod_eq_emod (n.emod v.m) (v.m.tdiv (bezout v.m t).2.2) hnn (by omega)]
      exact Int.emod_emod_of_dvd n hm1dvd
    · rw [if_neg hne]
      exact hr

/-- Canonical residues are preserved by exclude. -/
theorem exclude_canonical (v : RemainderValue) (t : Int)
    (hm : 1 ≤ v.m) (ht : 0 ≤ t) (hr0 : 0 ≤ v.r) (hrm : v.r < v.m) :
    0 ≤ (v.exclude t).r ∧ (v.exclude t).r < (v.exclude t).m := by
  have hr : v.r = v.r.emod v.m := (Int.emod_eq_of_lt hr0 hrm).symm
  have h := exclude_r_spec v.m.natAbs v t v.r le_rfl hm ht hr
  have hp := exclude_m_pos v t hm ht
  rw [h]
  exact ⟨Int.emod_nonneg _ (by omega), Int.emod_lt_of_pos _ (by omega)⟩

/-- Prime-multiplicity description of the exclude result: a prime that
divides the target is removed completely from the modulus, all other
primes keep their full multiplicity. -/
theorem exclude_factorization :
    ∀ (k : Nat) (v : RemainderValue) (t : Int),
      v.m.natAbs ≤ k → 1 ≤ v.m → 1 ≤ t → ∀ p : Nat, p.Prime →
        (v.exclude t).m.natAbs.factorization p
          = if p ∣ t.natAbs then 0 else v.m.natAbs.factorization p := by
  intro k
  induction k using Nat.strong_induction_on with
  | _ k ih =>
    intro v t hk hm ht p hp
    have hc : (bezout v.m t).2.2 = (Int.gcd v.m t : Int) :=
      bezout_c_of_nonneg (by omega) (by omega)
    rw [exclude_unfold v t hm (by omega)]
    by_cases hne : (bezout v.m t).2.2 ≠ 1
    · rw [if_pos hne]
      obtain ⟨hc2, hdvd, hm1, hprod, hlt, hhalf⟩ := exclude_c_facts hm (by omega) hne
      have hrec := ih (v.m.tdiv (bezout v.m t).2.2).natAbs (by omega)
        { r := v.r.tmod (v.m.tdiv (bezout v.m t).2.2),
          m := v.m.tdiv (bezout v.m t).2.2 } (bezout v.m t).2.2 le_rfl hm1 (by omega) p hp
      dsimp only at hrec
      rw [hrec]
      have hG : (bezout v.m t).2.2.natAbs = Nat.gcd v.m.natAbs t.natAbs := by
        rw [bezout_gcd_natAbs, Int.gcd_def]
      have hMsplit : (v.m.tdiv (bezout v.m t).2.2).natAbs * (bezout v.m t).2.2.natAbs
          = v.m.natAbs := by
        rw [← Int.natAbs_mul, hprod]
      have hM1ne : (v.m.tdiv (bezout v.m t).2.2).natAbs ≠ 0 := by omega
      have hGne : (bezout v.m t).2.2.natAbs ≠ 0 := by omega
      have hfactsum : (v.m.tdiv (bezout v.m t).2.2).natAbs.factorization p
            + (bezout v.m t).2.2.natAbs.factorization p
          = v.m.natAbs.factorization p := by
        rw [← Finsupp.add_apply, ← Nat.factorization_mul hM1ne hGne, hMsplit]
      by_cases hpG : p ∣ (bezout v.m t).2.2.natAbs
      · have hpT : p ∣ t.natAbs := dvd_trans hpG (by rw [hG]; exact Nat.gcd_dvd_right _ _)
        rw [if_pos hpG, if_pos hpT]
      · rw [if_neg hpG]
        have hGfact : (bezout v.m t).2.2.natAbs.factorization p = 0 :=
          Nat.factorization_eq_zero_of_not_dvd hpG
        by_cases hpT : p ∣ t.natAbs
        · rw [if_pos hpT]
          have hnotM1 : ¬ p ∣ (v.m.tdiv (bezout v.m t).2.2).natAbs := by
            intro hcon
            have hpM : p ∣ v.m.natAbs := by
              refine dvd_trans hcon ⟨(bezout v.m t).2.2.natAbs, hMsplit.symm⟩
            have : p ∣ Nat.gcd v.m.natAbs t.natAbs := Nat.dvd_gcd hpM hpT
            rw [← hG] at this
            exact hpG this
          exact Nat.factorization_eq_zero_of_not_dvd hnotM1
        · rw [if_neg hpT]
          omega
    · rw [if_neg hne]
      push_neg at hne
      rw [hne] at hc
      have hgcd1 : Nat.gcd v.m.natAbs t.natAbs = 1 := by
        rw [← Int.gcd_def]
        omega
      by_cases hpT : p ∣ t.natAbs
      · rw [if_pos hpT]
        have hnotM : ¬ p ∣ v.m.natAbs := by
          intro hcon
          have h1 : p ∣ Nat.gcd v.m.natAbs t.natAbs := Nat.dvd_gcd hcon hpT
          rw [hgcd1] at h1
          exact Nat.Prime.one_lt hp |>.ne' (Nat.dvd_one.mp h1)
        exact Nat.factorization_eq_zero_of_not_dvd hnotM
      · rw [if_neg hpT]

/-- The exclude recursion is already stable at fuel one more than the
base-two logarithm of the modulus: the recursion depth is bounded by
log2 of the modulus. -/
theorem exclude_fuel_stable_log :
    ∀ (k : Nat) (v : RemainderValue) (t : Int) (fuel : Nat),
      v.m.natAbs ≤ k → 1 ≤ v.m → 0 ≤ t → Nat.log 2 v.m.natAbs + 1 ≤ fuel →
      RemainderValue.exclude_fuel fuel v t = v.exclude t := by
  intro k
  induction k using Nat.strong_induction_on with
  | _ k ih =>
    intro v t fuel hk hm ht hfuel
    obtain ⟨f, rfl⟩ : ∃ f, fuel = f + 1 := ⟨fuel - 1, by omega⟩
    rw [exclude_fuel_succ, exclude_unfold v t hm ht]
    by_cases hne : (bezout v.m t).2.2 ≠ 1
    · rw [if_pos hne, if_pos hne]
      obtain ⟨hc2, hdvd, hm1, hprod, hlt, hhalf⟩ := exclude_c_facts hm ht hne
      have hhalfn : 2 * (v.m.tdiv (bezout v.m t).2.2).natAbs ≤ v.m.natAbs := by omega
      have hM2 : 2 ≤ v.m.natAbs := by omega
      have hlog1 : Nat.log 2 (v.m.tdiv (bezout v.m t).2.2).natAbs
          ≤ Nat.log 2 (v.m.natAbs / 2) := Nat.log_mono_right (by omega)
      have hlog2 : Nat.log 2 (v.m.natAbs / 2) = Nat.log 2 v.m.natAbs - 1 :=
        Nat.log_div_base 2 v.m.natAbs
      have hlogpos : 0 < Nat.log 2 v.m.natAbs := Nat.log_pos (by omega) hM2
      exact ih (v.m.tdiv (bezout v.m t).2.2).natAbs (by omega)
        { r := v.r.tmod (v.m.tdiv (bezout v.m t).2.2),
          m := v.m.tdiv (bezout v.m t).2.2 } (bezout v.m t).2.2 f
        le_rfl hm1 (by omega)
        (show Nat.log 2 (v.m.tdiv (bezout v.m t).2.2).natAbs + 1 ≤ f by omega)
    · rw [if_neg hne, if_neg hne]

/-! Theory of find_cnrt and extend. -/

/-- Two congruence values with equal fields are equal. -/
theorem RemainderValue.ext_rm {v w : RemainderValue} (hr : v.r = w.r) (hm : v.m = w.m) :
    v = w := by
  cases v
  cases w
  cases hr
  cases hm
  rfl

/-- CRT solution produced by find_cnrt on coprime positive moduli: the
modulus is the product, the residue is canonical in its range and
congruent to each input residue for the matching modulus. -/
theorem find_cnrt_spec (ma mb r1 r2 : Int) (hma : 1 ≤ ma) (hmb : 1 ≤ mb)
    (hg : Int.gcd ma mb = 1) :
    (find_cnrt ma mb r1 r2).m = ma * mb ∧
      0 ≤ (find_cnrt ma mb r1 r2).r ∧ (find_cnrt ma mb r1 r2).r < ma * mb ∧
      Int.ModEq ma (find_cnrt ma mb r1 r2).r r1 ∧
      Int.ModEq mb (find_cnrt ma mb r1 r2).r r2 := by
  have hc1 : (bezout ma mb).2.2 = 1 := by
    rw [bezout_c_of_nonneg (by omega : (0:Int) ≤ ma) (by omega : (0:Int) ≤ mb), hg,
      Nat.cast_one]
  have hid : (bezout ma mb).1 * ma + (bezout ma mb).2.1 * mb = 1 := by
    rw [← hc1]
    exact bezout_identity ma mb
  have hM : 0 < ma * mb := by nlinarith
  have hr : (find_cnrt ma mb r1 r2).r
      = (r2 * (bezout ma mb).1 * ma + r1 * (bezout ma mb).2.1 * mb).emod (ma * mb) := by
    show into_mod (r2 * (bezout ma mb).1 * ma + r1 * (bezout ma mb).2.1 * mb) (ma * mb)
      = _
    exact into_mod_eq_emod _ _ hM
  have hA : Int.ModEq ma (r2 * (bezout ma mb).1 * ma + r1 * (bezout ma mb).2.1 * mb) r1 := by
    have h0a : Int.ModEq ma (r2 * (bezout ma mb).1 * ma) 0 :=
      Int.modEq_iff_dvd.mpr ⟨-(r2 * (bezout ma mb).1), by ring⟩
    have hvb : Int.ModEq ma ((bezout ma mb).2.1 * mb) 1 :=
      Int.modEq_iff_dvd.mpr ⟨(bezout ma mb).1, by linear_combination (-1 : Int) * hid⟩
    calc r2 * (bezout ma mb).1 * ma + r1 * (bezout ma mb).2.1 * mb
        = r2 * (bezout ma mb).1 * ma + r1 * ((bezout ma mb).2.1 * mb) := by ring
      _ ≡ 0 + r1 * 1 [ZMOD ma] := Int.ModEq.add h0a (Int.ModEq.mul (Int.ModEq.refl r1) hvb)
      _ = r1 := by ring
  have hB : Int.ModEq mb (r2 * (bezout ma mb).1 * ma + r1 * (bezout ma mb).2.1 * mb) r2 := by
    have h0b : Int.ModEq mb (r1 * (bezout ma mb).2.1 * mb) 0 :=
      Int.modEq_iff_dvd.mpr ⟨-(r1 * (bezout ma mb).2.1), by ring⟩
    have hua : Int.ModEq mb ((bezout ma mb).1 * ma) 1 :=
      Int.modEq_iff_dvd.mpr ⟨(bezout ma mb).2.1, by linear_combination (-1 : Int) * hid⟩
    calc r2 * (bezout ma mb).1 * ma + r1 * (bezout ma mb).2.1 * mb
        = r2 * ((bezout ma mb).1 * ma) + r1 * (bezout ma mb).2.1 * mb := by ring
      _ ≡ r2 * 1 + 0 [ZMOD mb] := Int.ModEq.add (Int.ModEq.mul (Int.ModEq.refl r2) hua) h0b
      _ = r2 := by ring
  have hmodM : Int.ModEq ma (find_cnrt ma mb r1 r2).r
      (r2 * (bezout ma mb).1 * ma + r1 * (bezout ma mb).2.1 * mb) := by
    rw [hr]
    exact Int.emod_emod_of_dvd _ (dvd_mul_right ma mb)
  have hmodMb : Int.ModEq mb (find_cnrt ma mb r1 r2).r
      (r2 * (bezout ma mb).1 * ma + r1 * (bezout ma mb).2.1 * mb) := by
    rw [hr]
    exact Int.emod_emod_of_dvd _ (dvd_mul_left mb ma)
  refine ⟨rfl, ?_, ?_, hmodM.trans hA, hmodMb.trans hB⟩
  · rw [hr]
    exact Int.emod_nonneg _ (by omega)
  · rw [hr]
    exact Int.emod_lt_of_pos _ hM

/-- On coprime positive moduli, extending a canonical residue of n by a
second canonical residue of n yields the canonical residue of n for the
product modulus. -/
theorem extend_make (n ma mb : Int) (hma : 1 ≤ ma) (hmb : 1 ≤ mb)
    (hg : Int.gcd ma mb = 1) :
    RemainderValue.extend { r := n.emod ma, m := ma } mb (n.emod mb)
      = { r := n.emod (ma * mb), m := ma * mb } := by
  obtain ⟨hm, h0, hlt, hA, hB⟩ := find_cnrt_spec ma mb (n.emod ma) (n.emod mb) hma hmb hg
  have hco : Nat.Coprime ma.natAbs mb.natAbs := hg
  have hAn : Int.ModEq ma (find_cnrt ma mb (n.emod ma) (n.emod mb)).r n := by
    refine hA.trans ?_
    exact Int.emod_emod_of_dvd n (dvd_refl ma)
  have hBn : Int.ModEq mb (find_cnrt ma mb (n.emod ma) (n.emod mb)).r n := by
    refine hB.trans ?_
    exact Int.emod_emod_of_dvd n (dvd_refl mb)
  have hprod : Int.ModEq (ma * mb) (find_cnrt ma mb (n.emod ma) (n.emod mb)).r n :=
    (Int.modEq_and_modEq_iff_modEq_mul hco).mp ⟨hAn, hBn⟩
  refine RemainderValue.ext_rm ?_ hm
  show (find_cnrt ma mb (n.emod ma) (n.emod mb)).r = n.emod (ma * mb)
  have hself : (find_cnrt ma mb (n.emod ma) (n.emod mb)).r
      = (find_cnrt ma mb (n.emod ma) (n.emod mb)).r % (ma * mb) :=
    (Int.emod_eq_of_lt h0 hlt).symm
  rw [hself]
  exact hprod

/-! Theory of merge. -/

/-- On coprime positive integers the lcm, read back in Int, is the plain
product. -/
theorem int_lcm_coprime {m1 m2 : Int} (h1 : 1 ≤ m1) (h2 : 1 ≤ m2)
    (hg : Int.gcd m1 m2 = 1) : (Int.lcm m1 m2 : Int) = m1 * m2 := by
  have hco : Nat.Coprime m1.natAbs m2.natAbs := hg
  rw [Int.lcm_def, Nat.Coprime.lcm_eq_mul hco, Nat.cast_mul,
    Int.natAbs_of_nonneg (by omega : (0:Int) ≤ m1),
    Int.natAbs_of_nonneg (by omega : (0:Int) ≤ m2)]

/-- Multiplicity bookkeeping of the non-coprime merge branch: removing
from M2 the primes where M1 strictly dominates, then removing from M1 the
primes that survived in the reduced second modulus, leaves two coprime
factors whose product carries exactly the maximum multiplicity of every
prime: the lcm. -/
theorem merge_modulus_lcm (M1 M2 S A B : Nat) (hM1 : M1 ≠ 0) (hM2 : M2 ≠ 0)
    (hA : A ≠ 0) (hB : B ≠ 0)
    (hS : S * Nat.gcd M1 M2 = M1)
    (hBfact : ∀ p : Nat, p.Prime →
      B.factorization p = if p ∣ S then 0 else M2.factorization p)
    (hAfact : ∀ p : Nat, p.Prime →
      A.factorization p = if p ∣ B then 0 else M1.factorization p) :
    A * B = Nat.lcm M1 M2 := by
  have hSne : S ≠ 0 := by
    intro h
    rw [h, zero_mul] at hS
    exact hM1 hS.symm
  have hGne : Nat.gcd M1 M2 ≠ 0 := Nat.gcd_ne_zero_left hM1
  have hAB : A * B ≠ 0 := mul_ne_zero hA hB
  have hL : Nat.lcm M1 M2 ≠ 0 := Nat.lcm_ne_zero hM1 hM2
  refine Nat.factorization_inj hAB hL ?_
  ext p
  by_cases hp : p.Prime
  · have hSsum : S.factorization p + (Nat.gcd M1 M2).factorization p
        = M1.factorization p := by
      rw [← Finsupp.add_apply, ← Nat.factorization_mul hSne hGne, hS]
    have hGmin : (Nat.gcd M1 M2).factorization p
        = min (M1.factorization p) (M2.factorization p) := by
      rw [Nat.factorization_gcd hM1 hM2]
      exact Finsupp.inf_apply
    have hdvdS : p ∣ S ↔ M2.factorization p < M1.factorization p := by
      rw [Nat.Prime.dvd_iff_one_le_factorization hp hSne]
      omega
    have hdvdB : p ∣ B ↔ 1 ≤ B.factorization p :=
      Nat.Prime.dvd_iff_one_le_factorization hp hB
    have hABfact : (A * B).factorization p = A.factorization p + B.factorization p := by
      rw [Nat.factorization_mul hA hB]
      exact Finsupp.add_apply _ _ _
    have hLfact : (Nat.lcm M1 M2).factorization p
        = max (M1.factorization p) (M2.factorization p) := by
      rw [Nat.factorization_lcm hM1 hM2]
      exact Finsupp.sup_apply
    rw [hABfact, hLfact, hAfact p hp, hBfact p hp]
    by_cases hpS : p ∣ S
    · have hlt := hdvdS.mp hpS
      rw [if_pos hpS]
      have hnB : ¬ p ∣ B := by
        rw [hdvdB, hBfact p hp, if_pos hpS]
        omega
      rw [if_neg hnB]
      omega
    · rw [if_neg hpS]
      have hle : M1.factorization p ≤ M2.factorization p := by
        have := hdvdS.not.mp hpS
        omega
      by_cases hpB : p ∣ B
      · rw [if_pos hpB]
        omega
      · rw [if_neg hpB]
        have hB0 : B.factorization p = 0 := by
          have h1 := hdvdB.not.mp hpB
          omega
        rw [hBfact p hp, if_neg hpS] at hB0
        omega
  · rw [Nat.factorization_eq_zero_of_non_prime _ hp,
      Nat.factorization_eq_zero_of_non_prime _ hp]

/-- Behaviour of merge on two canonical residues of a common integer n:
the result is the canonical residue of n modulo the lcm of the two
moduli, whether or not the moduli are coprime. -/
theorem merge_make (n m1 m2 : Int) (h1 : 1 ≤ m1) (h2 : 1 ≤ m2) :
    RemainderValue.merge { r := n.emod m1, m := m1 } { r := n.emod m2, m := m2 }
      = { r := n.emod (Int.lcm m1 m2 : Int), m := (Int.lcm m1 m2 : Int) } := by
  have hc : (bezout m1 m2).2.2 = (Int.gcd m1 m2 : Int) :=
    bezout_c_of_nonneg (by omega) (by omega)
  have hgpos : 0 < Int.gcd m1 m2 := Int.gcd_pos_of_ne_zero_left m2 (by omega)
  unfold RemainderValue.merge
  dsimp only
  by_cases hco : (1 : Int) = (bezout m1 m2).2.2
  · rw [if_pos hco]
    have hg1 : Int.gcd m1 m2 = 1 := by omega
    rw [extend_make n m1 m2 h1 h2 hg1, int_lcm_coprime h1 h2 hg1]
  · rw [if_neg hco]
    have hcz : (bezout m1 m2).2.2 ≠ 0 := by omega
    have hcdvd : (bezout m1 m2).2.2 ∣ m1 := by
      rw [hc]
      exact Int.gcd_dvd_left
    obtain ⟨d, hd⟩ := hcdvd
    have htd : m1.tdiv (bezout m1 m2).2.2 = d := Int.tdiv_eq_of_eq_mul_right hcz hd
    have hspf1 : 1 ≤ m1.tdiv (bezout m1 m2).2.2 := by
      rw [htd]
      nlinarith
    have hprodspf : m1.tdiv (bezout m1 m2).2.2 * (bezout m1 m2).2.2 = m1 := by
      rw [htd]
      linarith [hd]
    have hBpos : 1 ≤ (RemainderValue.exclude { r := n.emod m2, m := m2 }
        (m1.tdiv (bezout m1 m2).2.2)).m :=
      exclude_m_pos { r := n.emod m2, m := m2 } (m1.tdiv (bezout m1 m2).2.2) h2 (by omega)
    have hBdvd : (RemainderValue.exclude { r := n.emod m2, m := m2 }
        (m1.tdiv (bezout m1 m2).2.2)).m ∣ m2 :=
      exclude_m_dvd { r := n.emod m2, m := m2 } (m1.tdiv (bezout m1 m2).2.2) h2 (by omega)
    have hBr : (RemainderValue.exclude { r := n.emod m2, m := m2 }
          (m1.tdiv (bezout m1 m2).2.2)).r
        = n.emod (RemainderValue.exclude { r := n.emod m2, m := m2 }
          (m1.tdiv (bezout m1 m2).2.2)).m :=
      exclude_r_spec m2.natAbs { r := n.emod m2, m := m2 }
        (m1.tdiv (bezout m1 m2).2.2) n le_rfl h2 (by omega) rfl
    have hApos : 1 ≤ (RemainderValue.exclude { r := n.emod m1, m := m1 }
        (RemainderValue.exclude { r := n.emod m2, m := m2 }
          (m1.tdiv (bezout m1 m2).2.2)).m).m :=
      exclude_m_pos { r := n.emod m1, m := m1 } _ h1 (by omega)
    have hAr : (RemainderValue.exclude { r := n.emod m1, m := m1 }
          (RemainderValue.exclude { r := n.emod m2, m := m2 }
            (m1.tdiv (bezout m1 m2).2.2)).m).r
        = n.emod (RemainderValue.exclude { r := n.emod m1, m := m1 }
          (RemainderValue.exclude { r := n.emod m2, m := m2 }
            (m1.tdiv (bezout m1 m2).2.2)).m).m :=
      exclude_r_spec m1.natAbs { r := n.emod m1, m := m1 } _ n le_rfl h1 (by omega) rfl
    have hgAB : Int.gcd (RemainderValue.exclude { r := n.emod m1, m := m1 }
          (RemainderValue.exclude { r := n.emod m2, m := m2 }
            (m1.tdiv (bezout m1 m2).2.2)).m).m
          (RemainderValue.exclude { r := n.emod m2, m := m2 }
            (m1.tdiv (bezout m1 m2).2.2)).m = 1 :=
      exclude_gcd_target { r := n.emod m1, m := m1 } _ h1 (by omega)
    have hfact : (RemainderValue.exclude { r := n.emod m1, m := m1 }
          (RemainderValue.exclude { r := n.emod m2, m := m2 }
            (m1.tdiv (bezout m1 m2).2.2)).m).m.natAbs
          * (RemainderValue.exclude { r := n.emod m2, m := m2 }
            (m1.tdiv (bezout m1 m2).2.2)).m.natAbs
        = Nat.lcm m1.natAbs m2.natAbs := by
      refine merge_modulus_lcm m1.natAbs m2.natAbs
        (m1.tdiv (bezout m1 m2).2.2).natAbs _ _
        (by omega) (by omega) (by omega) (by omega) ?_ ?_ ?_
      · have hnat : (m1.tdiv (bezout m1 m2).2.2).natAbs * (bezout m1 m2).2.2.natAbs
            = m1.natAbs := by
          rw [← Int.natAbs_mul, hprodspf]
        have hCg : (bezout m1 m2).2.2.natAbs = Nat.gcd m1.natAbs m2.natAbs := by
          rw [bezout_gcd_natAbs, Int.gcd_def]
        rw [← hCg]
        exact hnat
      · intro p hp
        exact exclude_factorization m2.natAbs { r := n.emod m2, m := m2 }
          (m1.tdiv (bezout m1 m2).2.2) le_rfl h2 hspf1 p hp
      · intro p hp
        exact exclude_factorization m1.natAbs { r := n.emod m1, m := m1 }
          (RemainderValue.exclude { r := n.emod m2, m := m2 }
            (m1.tdiv (bezout m1 m2).2.2)).m le_rfl h1 hBpos p hp
    have hfinal : (RemainderValue.exclude { r := n.emod m1, m := m1 }
          (RemainderValue.exclude { r := n.emod m2, m := m2 }
            (m1.tdiv (bezout m1 m2).2.2)).m).m
          * (RemainderValue.exclude { r := n.emod m2, m := m2 }
            (m1.tdiv (bezout m1 m2).2.2)).m
        = (Int.lcm m1 m2 : Int) := by
      have hnn : 0 ≤ (RemainderValue.exclude { r := n.emod m1, m := m1 }
            (RemainderValue.exclude { r := n.emod m2, m := m2 }
              (m1.tdiv (bezout m1 m2).2.2)).m).m
            * (RemainderValue.exclude { r := n.emod m2, m := m2 }
              (m1.tdiv (bezout m1 m2).2.2)).m := by positivity
      rw [← Int.natAbs_of_nonneg hnn, Int.natAbs_mul, hfact, Int.lcm_def]
    show RemainderValue.extend _ _ _ = _
    have hext := extend_make n
      (RemainderValue.exclude { r := n.emod m1, m := m1 }
        (RemainderValue.exclude { r := n.emod m2, m := m2 }
          (m1.tdiv (bezout m1 m2).2.2)).m).m
      (RemainderValue.exclude { r := n.emod m2, m := m2 }
        (m1.tdiv (bezout m1 m2).2.2)).m
      hApos hBpos hgAB
    calc RemainderValue.extend
          (RemainderValue.exclude { r := n.emod m1, m := m1 }
            (RemainderValue.exclude { r := n.emod m2, m := m2 }
              (m1.tdiv (bezout m1 m2).2.2)).m)
          (RemainderValue.exclude { r := n.emod m2, m := m2 }
            (m1.tdiv (bezout m1 m2).2.2)).m
          (RemainderValue.exclude { r := n.emod m2, m := m2 }
            (m1.tdiv (bezout m1 m2).2.2)).r
        = find_cnrt
            (RemainderValue.exclude { r := n.emod m1, m := m1 }
              (RemainderValue.exclude { r := n.emod m2, m := m2 }
                (m1.tdiv (bezout m1 m2).2.2)).m).m
            (RemainderValue.exclude { r := n.emod m2, m := m2 }
              (m1.tdiv (bezout m1 m2).2.2)).m
            (RemainderValue.exclude { r := n.emod m1, m := m1 }
              (RemainderValue.exclude { r := n.emod m2, m := m2 }
                (m1.tdiv (bezout m1 m2).2.2)).m).r
            (RemainderValue.exclude { r := n.emod m2, m := m2 }
              (m1.tdiv (bezout m1 m2).2.2)).r := rfl
      _ = find_cnrt
            (RemainderValue.exclude { r := n.emod m1, m := m1 }
              (RemainderValue.exclude { r := n.emod m2, m := m2 }
                (m1.tdiv (bezout m1 m2).2.2)).m).m
            (RemainderValue.exclude { r := n.emod m2, m := m2 }
              (m1.tdiv (bezout m1 m2).2.2)).m
            (n.emod (RemainderValue.exclude { r := n.emod m1, m := m1 }
              (RemainderValue.exclude { r := n.emod m2, m := m2 }
                (m1.tdiv (bezout m1 m2).2.2)).m).m)
            (n.emod (RemainderValue.exclude { r := n.emod m2, m := m2 }
              (m1.tdiv (bezout m1 m2).2.2)).m) := by rw [hAr, hBr]
      _ = { r := n.emod ((RemainderValue.exclude { r := n.emod m1, m := m1 }
              (RemainderValue.exclude { r := n.emod m2, m := m2 }
                (m1.tdiv (bezout m1 m2).2.2)).m).m
              * (RemainderValue.exclude { r := n.emod m2, m := m2 }
                (m1.tdiv (bezout m1 m2).2.2)).m),
            m := (RemainderValue.exclude { r := n.emod m1, m := m1 }
              (RemainderValue.exclude { r := n.emod m2, m := m2 }
                (m1.tdiv (bezout m1 m2).2.2)).m).m
              * (RemainderValue.exclude { r := n.emod m2, m := m2 }
                (m1.tdiv (bezout m1 m2).2.2)).m } := hext
      _ = { r := n.emod (Int.lcm m1 m2 : Int), m := (Int.lcm m1 m2 : Int) } := by
          rw [hfinal]

/-- Left fold of the moduli of a list through lcm; the combined modulus
the specification promises for the merge fold. -/
def listLcmFrom (start : Int) (l : List Int) : Int :=
  l.foldl (fun b a => (Int.lcm b a : Int)) start

/-- Combined modulus of a whole list of moduli. -/
def listLcm (l : List Int) : Int :=
  listLcmFrom 1 l

/-- Folding make values of a common integer n through merge, starting
from any canonical accumulator of n, accumulates the canonical residue of
n modulo the running lcm of the moduli. -/
theorem fold_merge_make (n : Int) :
    ∀ (l : List Int) (M : Int), 1 ≤ M → (∀ m ∈ l, 1 ≤ m) →
      (l.map (RemainderValue.make n)).foldl RemainderValue.merge
          { r := n.emod M, m := M }
        = { r := n.emod (listLcmFrom M l), m := listLcmFrom M l } := by
  intro l
  induction l with
  | nil =>
    intro M hM hl
    rfl
  | cons a t ih =>
    intro M hM hl
    have ha : 1 ≤ a := hl a (List.mem_cons_self a t)
    have hmk : RemainderValue.make n a = { r := n.emod a, m := a } :=
      make_eq n a (by omega)
    have hlcm1 : 1 ≤ ((Int.lcm M a : Nat) : Int) := by
      have hz : Int.lcm M a ≠ 0 := Int.lcm_ne_zero (by omega) (by omega)
      omega
    simp only [List.map_cons, List.foldl_cons]
    rw [hmk, merge_make n M a hM ha,
      ih ((Int.lcm M a : Nat) : Int) hlcm1 (fun m hm => hl m (List.mem_cons_of_mem a hm))]
    rfl

/-- The accumulated lcm of a list is invariant under permutation of the
list. -/
theorem listLcmFrom_perm {l1 l2 : List Int} (h : l1.Perm l2) :
    ∀ M : Int, listLcmFrom M l1 = listLcmFrom M l2 := by
  induction h with
  | nil =>
    intro M
    rfl
  | cons x h ih =>
    intro M
    simp only [listLcmFrom, List.foldl_cons]
    exact ih _
  | swap x y l =>
    intro M
    simp only [listLcmFrom, List.foldl_cons]
    have hswap : ((Int.lcm ((Int.lcm M y : Nat) : Int) x : Nat) : Int)
        = ((Int.lcm ((Int.lcm M x : Nat) : Int) y : Nat) : Int) := by
      have hn : Int.lcm ((Int.lcm M y : Nat) : Int) x
          = Int.lcm ((Int.lcm M x : Nat) : Int) y := by
        simp only [Int.lcm_def, Int.natAbs_ofNat]
        rw [Nat.lcm_assoc, Nat.lcm_assoc, Nat.lcm_comm y.natAbs x.natAbs]
      exact congrArg _ hn
    rw [hswap]
  | trans h1 h2 ih1 ih2 =>
    intro M
    rw [ih1, ih2]

/-- Canonicity of the find_cnrt output for positive moduli, coprime or
not: modulus positive, residue canonical. -/
theorem find_cnrt_canonical (ma mb r1 r2 : Int) (hma : 1 ≤ ma) (hmb : 1 ≤ mb) :
    1 ≤ (find_cnrt ma mb r1 r2).m ∧ 0 ≤ (find_cnrt ma mb r1 r2).r ∧
      (find_cnrt ma mb r1 r2).r < (find_cnrt ma mb r1 r2).m := by
  have hM : 0 < ma * mb := by nlinarith
  have hm : (find_cnrt ma mb r1 r2).m = ma * mb := rfl
  have hr : (find_cnrt ma mb r1 r2).r
      = (r2 * (bezout ma mb).1 * ma + r1 * (bezout ma mb).2.1 * mb).emod (ma * mb) := by
    show into_mod (r2 * (bezout ma mb).1 * ma + r1 * (bezout ma mb).2.1 * mb) (ma * mb)
      = _
    exact into_mod_eq_emod _ _ hM
  rw [hm, hr]
  exact ⟨by omega, Int.emod_nonneg _ (by omega), Int.emod_lt_of_pos _ hM⟩

/-- Canonicity of merge on positive moduli (residues need not come from
a common integer). -/
theorem merge_canonical (v w : RemainderValue) (hv : 1 ≤ v.m) (hw : 1 ≤ w.m) :
    1 ≤ (v.merge w).m ∧ 0 ≤ (v.merge w).r ∧ (v.merge w).r < (v.merge w).m := by
  unfold RemainderValue.merge
  dsimp only
  by_cases hco : (1 : Int) = (bezout v.m w.m).2.2
  · rw [if_pos hco]
    exact find_cnrt_canonical v.m w.m v.r w.r hv hw
  · rw [if_neg hco]
    have hgpos : 0 < Int.gcd v.m w.m := Int.gcd_pos_of_ne_zero_left w.m (by omega)
    have hc : (bezout v.m w.m).2.2 = (Int.gcd v.m w.m : Int) :=
      bezout_c_of_nonneg (by omega) (by omega)
    have hspf0 : 0 ≤ v.m.tdiv (bezout v.m w.m).2.2 :=
      Int.tdiv_nonneg (by omega) (by omega)
    have hBpos : 1 ≤ (w.exclude (v.m.tdiv (bezout v.m w.m).2.2)).m :=
      exclude_m_pos w _ hw hspf0
    have hApos : 1 ≤ (v.exclude (w.exclude (v.m.tdiv (bezout v.m w.m).2.2)).m).m :=
      exclude_m_pos v _ hv (by omega)
    exact find_cnrt_canonical _ _ _ _ hApos hBpos

/-! Claims. -/

/-- C1: for every integer n, every non-empty list of moduli with each
modulus at least 1, and every permutation of that list, left-folding
merge from the identity value over the values make(n, m_i) yields one and
the same final value: modulus the lcm of all the moduli and residue the
canonical residue of n modulo that lcm, even when the moduli are not
pairwise coprime. -/
theorem mergeFold_lcm_consistency (n : Int) (l lp : List Int) (hne : l ≠ [])
    (hpos : ∀ m ∈ l, 1 ≤ m) (hperm : l.Perm lp) :
    (lp.map (RemainderValue.make n)).foldl RemainderValue.merge RemainderValue.new
      = { r := n.emod (listLcm l), m := listLcm l } := by
  have hposp : ∀ m ∈ lp, 1 ≤ m := fun m hm => hpos m (hperm.mem_iff.mpr hm)
  have h01 : n.emod 1 = 0 := Int.emod_one n
  have hnew : RemainderValue.new = { r := n.emod 1, m := 1 } := by
    show ({ r := 0, m := 1 } : RemainderValue) = _
    rw [h01]
  rw [hnew, fold_merge_make n lp 1 le_rfl hposp, ← listLcmFrom_perm hperm 1]
  rfl

/-- Witness for C1 at n = 7 over the moduli [2, 3] permuted to [3, 2]. -/
theorem mergeFold_lcm_consistency_witness :
    (([2, 3] : List Int) ≠ [] ∧ (∀ m ∈ ([2, 3] : List Int), 1 ≤ m) ∧
        ([2, 3] : List Int).Perm [3, 2]) ∧
      ([3, 2].map (RemainderValue.make 7)).foldl RemainderValue.merge RemainderValue.new
        = { r := (7 : Int).emod (listLcm [2, 3]), m := listLcm [2, 3] } :=
  ⟨⟨by decide, by decide, by decide⟩,
    mergeFold_lcm_consistency 7 [2, 3] [3, 2] (by decide) (by decide) (by decide)⟩

/-- C2: for all integers x, y not both zero, the iterative bezout
returns (u, v, c) with u * x + v * y = c and the absolute value of c
equal to gcd(x, y) (the sign of c is not guaranteed positive). -/
theorem bezout_identity_abs_gcd (x y : Int) (h : ¬(x = 0 ∧ y = 0)) :
    (bezout x y).1 * x + (bezout x y).2.1 * y = (bezout x y).2.2 ∧
      (bezout x y).2.2.natAbs = Int.gcd x y :=
  ⟨bezout_identity x y, bezout_gcd_natAbs x y⟩

/-- Witness for C2 at (4, 6). -/
theorem bezout_identity_abs_gcd_witness :
    ¬((4 : Int) = 0 ∧ (6 : Int) = 0) ∧
      ((bezout 4 6).1 * 4 + (bezout 4 6).2.1 * 6 = (bezout 4 6).2.2 ∧
        (bezout 4 6).2.2.natAbs = Int.gcd 4 6) :=
  ⟨by decide, bezout_identity_abs_gcd 4 6 (by decide)⟩

/-- C3: for coprime moduli m0, m1 at least 1 and canonical residues r0,
r1, extend on (r0, m0) with (m1, r1) produces the value with modulus
m0 * m1 whose residue lies in [0, m0 * m1), reduces to r0 modulo m0 and
to r1 modulo m1, and is the unique such value in that range. -/
theorem extend_pairwise_crt (m0 m1 r0 r1 : Int) (hm0 : 1 ≤ m0) (hm1 : 1 ≤ m1)
    (hg : Int.gcd m0 m1 = 1) (hr00 : 0 ≤ r0) (hr0m : r0 < m0)
    (hr10 : 0 ≤ r1) (hr1m : r1 < m1) :
    (RemainderValue.extend { r := r0, m := m0 } m1 r1).m = m0 * m1 ∧
      0 ≤ (RemainderValue.extend { r := r0, m := m0 } m1 r1).r ∧
      (RemainderValue.extend { r := r0, m := m0 } m1 r1).r < m0 * m1 ∧
      (RemainderValue.extend { r := r0, m := m0 } m1 r1).r.emod m0 = r0 ∧
      (RemainderValue.extend { r := r0, m := m0 } m1 r1).r.emod m1 = r1 ∧
      ∀ y : Int, 0 ≤ y → y < m0 * m1 → y.emod m0 = r0 → y.emod m1 = r1 →
        y = (RemainderValue.extend { r := r0, m := m0 } m1 r1).r := by
  obtain ⟨hm, h0, hlt, hA, hB⟩ := find_cnrt_spec m0 m1 r0 r1 hm0 hm1 hg
  have hAe : (find_cnrt m0 m1 r0 r1).r.emod m0 = r0 := by
    have h2 : (find_cnrt m0 m1 r0 r1).r % m0 = r0 % m0 := hA
    rw [Int.emod_eq_of_lt hr00 hr0m] at h2
    exact h2
  have hBe : (find_cnrt m0 m1 r0 r1).r.emod m1 = r1 := by
    have h2 : (find_cnrt m0 m1 r0 r1).r % m1 = r1 % m1 := hB
    rw [Int.emod_eq_of_lt hr10 hr1m] at h2
    exact h2
  refine ⟨hm, h0, hlt, hAe, hBe, ?_⟩
  intro y hy0 hyM hy1 hy2
  have hco : Nat.Coprime m0.natAbs m1.natAbs := hg
  have hMA : Int.ModEq m0 y (find_cnrt m0 m1 r0 r1).r := by
    show y.emod m0 = (find_cnrt m0 m1 r0 r1).r.emod m0
    rw [hAe]
    exact hy1
  have hMB : Int.ModEq m1 y (find_cnrt m0 m1 r0 r1).r := by
    show y.emod m1 = (find_cnrt m0 m1 r0 r1).r.emod m1
    rw [hBe]
    exact hy2
  have hMM : Int.ModEq (m0 * m1) y (find_cnrt m0 m1 r0 r1).r :=
    (Int.modEq_and_modEq_iff_modEq_mul hco).mp ⟨hMA, hMB⟩
  have hy : y = y % (m0 * m1) := (Int.emod_eq_of_lt hy0 hyM).symm
  have hx : (find_cnrt m0 m1 r0 r1).r = (find_cnrt m0 m1 r0 r1).r % (m0 * m1) :=
    (Int.emod_eq_of_lt h0 hlt).symm
  show y = (find_cnrt m0 m1 r0 r1).r
  rw [hy, hx]
  exact hMM

/-- Witness for C3 at m0 = 2, m1 = 3, r0 = 1, r1 = 2. -/
theorem extend_pairwise_crt_witness :
    ((1 : Int) ≤ 2 ∧ (1 : Int) ≤ 3 ∧ Int.gcd 2 3 = 1 ∧ (0 : Int) ≤ 1 ∧
        (1 : Int) < 2 ∧ (0 : Int) ≤ 2 ∧ (2 : Int) < 3) ∧
      ((RemainderValue.extend { r := 1, m := 2 } 3 2).m = 2 * 3 ∧
        0 ≤ (RemainderValue.extend { r := 1, m := 2 } 3 2).r ∧
        (RemainderValue.extend { r := 1, m := 2 } 3 2).r < 2 * 3 ∧
        (RemainderValue.extend { r := 1, m := 2 } 3 2).r.emod 2 = 1 ∧
        (RemainderValue.extend { r := 1, m := 2 } 3 2).r.emod 3 = 2 ∧
        ∀ y : Int, 0 ≤ y → y < 2 * 3 → y.emod 2 = 1 → y.emod 3 = 2 →
          y = (RemainderValue.extend { r := 1, m := 2 } 3 2).r) :=
  ⟨⟨by decide, by decide, by decide, by decide, by decide, by decide, by decide⟩,
    extend_pairwise_crt 2 3 1 2 (by decide) (by decide) (by decide) (by decide)
      (by decide) (by decide) (by decide)⟩

/-- C4: for every canonical value with modulus at least 1 and every
target at least 1, the modulus of exclude(self, target) is coprime with
the original target. -/
theorem exclude_result_coprime_target (v : RemainderValue) (t : Int)
    (hm : 1 ≤ v.m) (hr0 : 0 ≤ v.r) (hrm : v.r < v.m) (ht : 1 ≤ t) :
    Int.gcd (v.exclude t).m t = 1 :=
  exclude_gcd_target v t hm (by omega)

/-- Witness for C4 at the value (1 mod 12) and target 8. -/
theorem exclude_result_coprime_target_witness :
    ((1 : Int) ≤ (⟨1, 12⟩ : RemainderValue).m ∧
        (0 : Int) ≤ (⟨1, 12⟩ : RemainderValue).r ∧
        (⟨1, 12⟩ : RemainderValue).r < (⟨1, 12⟩ : RemainderValue).m ∧
        (1 : Int) ≤ 8) ∧
      Int.gcd ((⟨1, 12⟩ : RemainderValue).exclude 8).m 8 = 1 :=
  ⟨⟨by decide, by decide, by decide, by decide⟩,
    exclude_result_coprime_target ⟨1, 12⟩ 8 (by decide) (by decide) (by decide)
      (by decide)⟩

/-- Counterexample to C5 as stated: the modulus -3 is nonpositive, yet
make(5, -3) does not fault; it returns the value (r = -1, m = -3), since
the Rust remainder only panics on a zero divisor. -/
theorem make_checked_neg_modulus_no_fault :
    (-3 : Int) ≤ 0 ∧
      RemainderValue.make_checked 5 (-3) = some { r := -1, m := -3 } := by
  decide

/-- C5 amended: make(n, m) faults with a division error exactly when the
modulus m is zero; every nonzero modulus, negative ones included,
produces a RemainderValue without fault. -/
theorem make_checked_none_iff_zero (n m : Int) :
    RemainderValue.make_checked n m = none ↔ m = 0 := by
  unfold RemainderValue.make_checked into_mod_checked
  by_cases h : m = 0
  · simp [h]
  · simp [h]

/-- Counterexample to C6 as stated: at x = y = 1 the recursive variant
returns (1, 0, 1) while the iterative bezout returns (0, 1, 1); the
coefficient pairs differ. -/
theorem bezout_recursive_ne_bezout_at_one_one :
    bezout_recursive 1 1 ≠ bezout 1 1 := by
  have h1 : bezout 1 1 = (0, 1, 1) := by
    rw [bezout, looper]
    norm_num [Int.tmod, Int.tdiv]
    rw [looper]
    norm_num
  have h2 : bezout_recursive 1 1 = (1, 0, 1) := by
    rw [bezout_recursive, bezout_marked]
    norm_num [Int.tmod, Int.tdiv]
    rw [bezout_marked]
    norm_num
  rw [h1, h2]
  decide

/-- C6 amended: for all x, y not both zero the recursive variant agrees
with the iterative bezout on the third component c exactly, and its own
triple satisfies the Bezout identity u * x + v * y = c; the coefficient
pair (u, v) may differ from the iterative one. -/
theorem bezout_recursive_same_c_and_identity (x y : Int) (h : ¬(x = 0 ∧ y = 0)) :
    (bezout_recursive x y).2.2 = (bezout x y).2.2 ∧
      (bezout_recursive x y).1 * x + (bezout_recursive x y).2.1 * y
        = (bezout_recursive x y).2.2 :=
  ⟨bezout_marked_c x y 0, bezout_marked_identity x y 0⟩

/-- Witness for the amended C6 at (1, 1). -/
theorem bezout_recursive_same_c_and_identity_witness :
    ¬((1 : Int) = 0 ∧ (1 : Int) = 0) ∧
      ((bezout_recursive 1 1).2.2 = (bezout 1 1).2.2 ∧
        (bezout_recursive 1 1).1 * 1 + (bezout_recursive 1 1).2.1 * 1
          = (bezout_recursive 1 1).2.2) :=
  ⟨by decide, bezout_recursive_same_c_and_identity 1 1 (by decide)⟩

/-- C7: the identity value (0, 1) is neutral for merge on every
canonical congruence value, on both sides. -/
theorem merge_identity_law (v : RemainderValue) (hm : 1 ≤ v.m) (hr0 : 0 ≤ v.r)
    (hrm : v.r < v.m) :
    RemainderValue.merge RemainderValue.new v = v ∧
      RemainderValue.merge v RemainderValue.new = v := by
  obtain ⟨r, m⟩ := v
  have hm2 : (1 : Int) ≤ m := hm
  have hr0x : (0 : Int) ≤ r := hr0
  have hrmx : r < m := hrm
  have he : r.emod m = r := Int.emod_eq_of_lt hr0x hrmx
  have hv : ({ r := r, m := m } : RemainderValue) = { r := r.emod m, m := m } := by
    rw [he]
  have h01 : (r : Int).emod 1 = 0 := Int.emod_one r
  have hnew : RemainderValue.new = { r := (r : Int).emod 1, m := 1 } := by
    show ({ r := 0, m := 1 } : RemainderValue) = _
    rw [h01]
  constructor
  · rw [hnew, hv, merge_make r 1 m le_rfl hm2]
    have hl : ((Int.lcm 1 m : Nat) : Int) = m := by
      rw [Int.lcm_one_left, Int.natAbs_of_nonneg (by omega)]
    rw [hl]
  · rw [hnew, hv, merge_make r m 1 hm2 le_rfl]
    have hl : ((Int.lcm m 1 : Nat) : Int) = m := by
      rw [Int.lcm_one_right, Int.natAbs_of_nonneg (by omega)]
    rw [hl]

/-- Witness for C7 at the value (2 mod 5). -/
theorem merge_identity_law_witness :
    ((1 : Int) ≤ (⟨2, 5⟩ : RemainderValue).m ∧
        (0 : Int) ≤ (⟨2, 5⟩ : RemainderValue).r ∧
        (⟨2, 5⟩ : RemainderValue).r < (⟨2, 5⟩ : RemainderValue).m) ∧
      (RemainderValue.merge RemainderValue.new ⟨2, 5⟩ = ⟨2, 5⟩ ∧
        RemainderValue.merge ⟨2, 5⟩ RemainderValue.new = ⟨2, 5⟩) :=
  ⟨⟨by decide, by decide, by decide⟩,
    merge_identity_law ⟨2, 5⟩ (by decide) (by decide) (by decide)⟩

/-- C8: every operation preserves canonical form: under the stated
preconditions (moduli at least 1, operand values canonical) the values
returned by new, make, extend, merge and exclude have a modulus at least
1 and a residue in [0, m); in particular make(n, m) is canonical for
every integer n, including negative n. -/
theorem ops_preserve_canonical :
    (1 ≤ RemainderValue.new.m ∧ 0 ≤ RemainderValue.new.r ∧
        RemainderValue.new.r < RemainderValue.new.m) ∧
      (∀ n m : Int, 1 ≤ m →
        1 ≤ (RemainderValue.make n m).m ∧ 0 ≤ (RemainderValue.make n m).r ∧
          (RemainderValue.make n m).r < (RemainderValue.make n m).m) ∧
      (∀ (v : RemainderValue) (m1 r1 : Int), 1 ≤ v.m → 0 ≤ v.r → v.r < v.m →
          1 ≤ m1 →
        1 ≤ (v.extend m1 r1).m ∧ 0 ≤ (v.extend m1 r1).r ∧
          (v.extend m1 r1).r < (v.extend m1 r1).m) ∧
      (∀ v w : RemainderValue, 1 ≤ v.m → 0 ≤ v.r → v.r < v.m →
          1 ≤ w.m → 0 ≤ w.r → w.r < w.m →
        1 ≤ (v.merge w).m ∧ 0 ≤ (v.merge w).r ∧ (v.merge w).r < (v.merge w).m) ∧
      (∀ (v : RemainderValue) (t : Int), 1 ≤ v.m → 0 ≤ v.r → v.r < v.m → 1 ≤ t →
        1 ≤ (v.exclude t).m ∧ 0 ≤ (v.exclude t).r ∧
          (v.exclude t).r < (v.exclude t).m) := by
  refine ⟨⟨by decide, by decide, by decide⟩, ?_, ?_, ?_, ?_⟩
  · intro n m hm
    rw [make_eq n m (by omega)]
    exact ⟨hm, Int.emod_nonneg n (by omega), Int.emod_lt_of_pos n (by omega)⟩
  · intro v m1 r1 hm hr0 hrm hm1
    exact find_cnrt_canonical v.m m1 v.r r1 hm hm1
  · intro v w hvm hvr0 hvrm hwm hwr0 hwrm
    exact merge_canonical v w hvm hwm
  · intro v t hm hr0 hrm ht
    exact ⟨exclude_m_pos v t hm (by omega),
      (exclude_canonical v t hm (by omega) hr0 hrm).1,
      (exclude_canonical v t hm (by omega) hr0 hrm).2⟩

/-- Witness for C8 at make(-7, 3), extend of (1 mod 2) by (2 mod 3),
merge of (1 mod 2) with (2 mod 3), and exclude of (1 mod 12) by 8. -/
theorem ops_preserve_canonical_witness :
    (1 ≤ (RemainderValue.make (-7) 3).m ∧ 0 ≤ (RemainderValue.make (-7) 3).r ∧
        (RemainderValue.make (-7) 3).r < (RemainderValue.make (-7) 3).m) ∧
      (1 ≤ ((⟨1, 2⟩ : RemainderValue).extend 3 2).m ∧
        0 ≤ ((⟨1, 2⟩ : RemainderValue).extend 3 2).r ∧
        ((⟨1, 2⟩ : RemainderValue).extend 3 2).r
          < ((⟨1, 2⟩ : RemainderValue).extend 3 2).m) ∧
      (1 ≤ ((⟨1, 2⟩ : RemainderValue).merge ⟨2, 3⟩).m ∧
        0 ≤ ((⟨1, 2⟩ : RemainderValue).merge ⟨2, 3⟩).r ∧
        ((⟨1, 2⟩ : RemainderValue).merge ⟨2, 3⟩).r
          < ((⟨1, 2⟩ : RemainderValue).merge ⟨2, 3⟩).m) ∧
      (1 ≤ ((⟨1, 12⟩ : RemainderValue).exclude 8).m ∧
        0 ≤ ((⟨1, 12⟩ : RemainderValue).exclude 8).r ∧
        ((⟨1, 12⟩ : RemainderValue).exclude 8).r
          < ((⟨1, 12⟩ : RemainderValue).exclude 8).m) :=
  ⟨ops_preserve_canonical.2.1 (-7) 3 (by decide),
    ops_preserve_canonical.2.2.1 ⟨1, 2⟩ 3 2 (by decide) (by decide) (by decide)
      (by decide),
    ops_preserve_canonical.2.2.2.1 ⟨1, 2⟩ ⟨2, 3⟩ (by decide) (by decide) (by decide)
      (by decide) (by decide) (by decide),
    ops_preserve_canonical.2.2.2.2 ⟨1, 12⟩ 8 (by decide) (by decide) (by decide)
      (by decide)⟩

/-- C9: exclude terminates: whenever it recurses the removed gcd c
exceeds 1 and divides the modulus, so the modulus drops by a factor of at
least 2 per step, and the whole recursion has stabilized at a call-stack
depth of log2(m) plus one. -/
theorem exclude_decrease_and_log2_termination (v : RemainderValue) (t : Int)
    (hm : 1 ≤ v.m) (ht : 0 ≤ t) :
    ((bezout v.m t).2.2 ≠ 1 →
        1 < (bezout v.m t).2.2 ∧ (bezout v.m t).2.2 ∣ v.m ∧
          2 * v.m.tdiv (bezout v.m t).2.2 ≤ v.m) ∧
      ∀ fuel : Nat, Nat.log 2 v.m.natAbs + 1 ≤ fuel →
        RemainderValue.exclude_fuel fuel v t = v.exclude t := by
  constructor
  · intro hne
    obtain ⟨hc2, hdvd, hm1, hprod, hlt, hhalf⟩ := exclude_c_facts hm ht hne
    exact ⟨by omega, hdvd, hhalf⟩
  · intro fuel hf
    exact exclude_fuel_stable_log v.m.natAbs v t fuel le_rfl hm ht hf

/-- Witness for C9 at the value (1 mod 12) and target 8. -/
theorem exclude_decrease_and_log2_termination_witness :
    ((1 : Int) ≤ (⟨1, 12⟩ : RemainderValue).m ∧ (0 : Int) ≤ 8) ∧
      (((bezout (⟨1, 12⟩ : RemainderValue).m 8).2.2 ≠ 1 →
          1 < (bezout (⟨1, 12⟩ : RemainderValue).m 8).2.2 ∧
            (bezout (⟨1, 12⟩ : RemainderValue).m 8).2.2 ∣ (⟨1, 12⟩ : RemainderValue).m ∧
            2 * (⟨1, 12⟩ : RemainderValue).m.tdiv (bezout (⟨1, 12⟩ : RemainderValue).m 8).2.2
              ≤ (⟨1, 12⟩ : RemainderValue).m) ∧
        ∀ fuel : Nat, Nat.log 2 (⟨1, 12⟩ : RemainderValue).m.natAbs + 1 ≤ fuel →
          RemainderValue.exclude_fuel fuel ⟨1, 12⟩ 8
            = (⟨1, 12⟩ : RemainderValue).exclude 8) :=
  ⟨⟨by decide, by decide⟩,
    exclude_decrease_and_log2_termination ⟨1, 12⟩ 8 (by decide) (by decide)⟩

/-- C10: verify compares the truncating remainder against the stored
canonical residue, so a value built from a negative integer fails its own
verification whenever the modulus is at least 2 and does not divide the
integer. -/
theorem verify_false_on_negative (n m : Int) (hm : 2 ≤ m) (hn : n < 0)
    (hnd : ¬ m ∣ n) :
    RemainderValue.verify (RemainderValue.make n m) n = false := by
  rw [make_eq n m (by omega)]
  show (n.tmod m == n.emod m) = false
  have h1 : (-(-n)).tmod m = -((-n).tmod m) := neg_tmod (-n) m
  rw [neg_neg] at h1
  have h2 := Int.tmod_nonneg m (by omega : (0 : Int) ≤ -n)
  have h3 : n.tmod m ≠ 0 := by
    intro h0
    exact hnd (Int.dvd_of_tmod_eq_zero h0)
  have h4 : 0 ≤ n.emod m := Int.emod_nonneg n (by omega)
  have h5 : n.emod m ≠ 0 := by
    intro h0
    exact hnd (Int.dvd_of_emod_eq_zero h0)
  rw [beq_eq_false_iff_ne]
  omega

/-- Witness for C10 at n = -5, m = 3. -/
theorem verify_false_on_negative_witness :
    ((2 : Int) ≤ 3 ∧ (-5 : Int) < 0 ∧ ¬ (3 : Int) ∣ (-5)) ∧
      RemainderValue.verify (RemainderValue.make (-5) 3) (-5) = false :=
  ⟨⟨by decide, by decide, by decide⟩,
    verify_false_on_negative (-5) 3 (by decide) (by decide) (by decide)⟩

end Cnrt
